import Mathlib

/-!
Verification development for the morgul Jungfrau frame-correction core
(`src/morgul/morgul.c`, current revision: the variant taking the photon
energy on the command line and expanding frames with `embiggen`).

The C program is shallowly embedded per pixel: every pixel of the module
evolves independently in `pedestal` and in the per-pixel loop of `work`,
so the embedding threads one pixel's stream of 16-bit samples through the
same control flow as the C loops.  C doubles are modelled as exact
rationals, machine integers as `Nat`/`Int` with explicit masking, and the
C `fread` semantics (a read past end-of-stream leaves the destination
buffer untouched) is modelled by `freadPixel`.
-/

namespace Morgul

/-- Truncation of a rational toward zero, the rounding performed by a C
cast from `double` to an integer type (`Int.tdiv` truncates toward 0). -/
def ratTrunc (q : ℚ) : ℤ :=
  q.num.tdiv (q.den : ℤ)

/-- The C cast `(unsigned int)d` of a `double`: truncate toward zero,
then reduce into the 32-bit range (wraparound model for the
out-of-range/UB-adjacent cases). -/
def castU32 (q : ℚ) : ℕ :=
  (ratTrunc q % (2 ^ 32 : ℤ)).toNat

/-- The global calibration state of morgul.c: the three gain tables
(`g0`,`g1`,`g2`), the three pedestal maps (`p0`,`p1`,`p2`) and the pixel
mask, restricted to a single pixel. -/
structure Calib where
  g0 : ℚ
  g1 : ℚ
  g2 : ℚ
  p0 : ℚ
  p1 : ℚ
  p2 : ℚ
  mask : Bool

/-- The per-pixel body of the frame loop in `work` (morgul.c lines
402-424): `pixels[p] *= mask[p]`, mode extraction, the gain-mode switch,
the truncating store into `scratch[p]`, and the final sentinel override
for masked pixels. -/
def correctPixel (st : Calib) (raw : ℕ) (energy : ℚ) : ℕ :=
  let v := raw * (if st.mask then 1 else 0)
  let mode := v >>> 14
  let pixel : ℚ := ((v &&& 0x3fff : ℕ) : ℚ)
  let r :=
    if mode = 3 then castU32 ((pixel - st.p2) / (st.g2 * energy))
    else if mode = 1 then castU32 ((pixel - st.p1) / (st.g1 * energy))
    else castU32 ((pixel - st.p0) / (st.g0 * energy))
  if st.mask = false then 0xffffffff else r

/-- One `fread` of a pixel's sample: pops the next frame's sample if the
stream still has one, otherwise leaves the buffer contents unchanged
(C `fread` at end of file writes nothing). -/
def freadPixel : List ℕ × ℕ → List ℕ × ℕ
  | ([], buf) => ([], buf)
  | (x :: rest, _) => (rest, x)

/-- The accumulation loop of the low-gain and medium-gain dark passes in
`pedestal` (morgul.c lines 316-344), for one pixel: each of `n`
iterations reads a sample and adds its low 14 bits to the accumulator.
State: (remaining stream, read buffer, accumulator). -/
def forcedLoop : ℕ → List ℕ × ℕ × ℕ → List ℕ × ℕ × ℕ
  | 0, st => st
  | n + 1, (stream, buf, acc) =>
    let s := freadPixel (stream, buf)
    forcedLoop n (s.1, s.2, acc + (s.2 &&& 0x3fff))

/-- The high-gain dark pass of `pedestal` (morgul.c lines 349-361), for
one pixel: if the sample has either of its top two bits set the pixel is
masked and its accumulator reset to zero, otherwise the full raw value is
added.  State: (remaining stream, read buffer, accumulator, mask). -/
def highLoop : ℕ → List ℕ × ℕ × ℕ × Bool → List ℕ × ℕ × ℕ × Bool
  | 0, st => st
  | n + 1, (stream, buf, acc, m) =>
    let s := freadPixel (stream, buf)
    if s.2 &&& 0xc000 ≠ 0 then highLoop n (s.1, s.2, 0, false)
    else highLoop n (s.1, s.2, acc + s.2, m)

/-- The result of `pedestal` for one pixel: the three pedestal values and
the mask bit. -/
structure DarkCal where
  p0 : ℚ
  p1 : ℚ
  p2 : ℚ
  mask : Bool

/-- The `pedestal` function of morgul.c (lines 298-368), for one pixel:
1000 low-gain frames accumulated into `p2`, 1000 medium-gain frames into
`p1`, 1000 high-gain frames into `p0` with masking, each divided by the
fixed constant 1000.  `buf0` is the (uninitialised) content of the read
buffer before the first `fread`. -/
def pedestalPixel (stream : List ℕ) (buf0 : ℕ) : DarkCal :=
  let l := forcedLoop 1000 (stream, buf0, 0)
  let m := forcedLoop 1000 (l.1, l.2.1, 0)
  let h := highLoop 1000 (m.1, m.2.1, 0, true)
  { p0 := (h.2.2.1 : ℚ) / 1000
    p1 := (m.2.2 : ℚ) / 1000
    p2 := (l.2.2 : ℚ) / 1000
    mask := h.2.2.2 }

/-- The frame loop of `work` (morgul.c lines 398-434), for one pixel,
threading through it the global state `work` can see: each frame's
corrected value is appended to the output and the calibration state is
carried along (the loop body contains no store to any calibration
array). -/
def workRun (st : Calib) (energy : ℚ) (frames : List ℕ) : Calib × List ℕ :=
  frames.foldl (fun s raw => (s.1, s.2 ++ [correctPixel s.1 raw energy])) (st, [])

/-- Assembling the global state of `work` from the gain tables read by
`setup` and the output of `pedestal`. -/
def calibOf (d : DarkCal) (g0 g1 g2 : ℚ) : Calib :=
  { g0 := g0, g1 := g1, g2 := g2, p0 := d.p0, p1 := d.p1, p2 := d.p2, mask := d.mask }

/-- The `main` function of morgul.c (lines 452-476), per pixel, for a
single data file: the only validation performed is the argument count
(`argc < 4` prints usage and exits); otherwise `setup`, `pedestal` and
`work` run, `work` skipping the first 2000 frames of the first file.
The energy taken from `argv[1]` is used without any check. -/
def morgulMainPixel (argc : ℕ) (energy : ℚ) (g0 g1 g2 : ℚ) (stream : List ℕ)
    (buf0 : ℕ) : Option (List ℕ) :=
  if argc < 4 then none
  else
    let cal := calibOf (pedestalPixel stream buf0) g0 g1 g2
    some (workRun cal energy (stream.drop 2000)).2

/-- The sentinel marking masked and non-physical pixels. -/
def sentinel : ℕ := 0xffffffff

/-- The eight (output offset, input offset) pairs of the inner loop body
of `embiggen` (morgul.c lines 270-280), written as the literal offsets of
the eight assignments. -/
def tileOffsets : List (ℕ × ℕ) :=
  [(0, 0), (258, 256), (516, 512), (774, 768),
   (265740, 262144), (258 + 265740, 256 + 262144),
   (516 + 265740, 512 + 262144), (774 + 265740, 768 + 262144)]

/-- One store `out[k] = v` into a flat array modelled as a function. -/
def writeCell (out : ℕ → ℕ) (k v : ℕ) : ℕ → ℕ :=
  fun x => if x = k then v else out x

/-- The sequence of (output index, input index) stores performed by the
double loop of `embiggen`: `i` and `j` each range over 1..254 and the
body performs the eight assignments of `tileOffsets`. -/
def embiggenWrites : List (ℕ × ℕ) :=
  (List.range' 1 254).flatMap fun i =>
    (List.range' 1 254).flatMap fun j =>
      tileOffsets.map fun od => (i * 1030 + j + od.1, i * 1024 + j + od.2)

/-- The `embiggen` function of morgul.c (lines 265-282): the 514x1030
output is memset to the sentinel pattern, then the double loop copies the
eight 254x254 tile interiors. -/
def embiggen (img : ℕ → ℕ) : ℕ → ℕ :=
  embiggenWrites.foldl (fun out w => writeCell out w.1 (img w.2)) (fun _ => sentinel)

theorem foldl_writeCell_not_mem (img : ℕ → ℕ) (ws : List (ℕ × ℕ)) (out : ℕ → ℕ) (k : ℕ)
    (h : ∀ w ∈ ws, w.1 ≠ k) :
    ws.foldl (fun o w => writeCell o w.1 (img w.2)) out k = out k := by
  induction ws generalizing out with
  | nil => rfl
  | cons w ws ih =>
    rw [List.foldl_cons, ih _ (fun w' hw' => h w' (List.mem_cons_of_mem _ hw'))]
    have hne : k ≠ w.1 := fun hh => h w (List.mem_cons_self _ _) hh.symm
    simp [writeCell, hne]

theorem foldl_writeCell_mem (img : ℕ → ℕ) (ws : List (ℕ × ℕ)) (out : ℕ → ℕ) (k s : ℕ)
    (hmem : (k, s) ∈ ws) (huniq : ∀ w ∈ ws, w.1 = k → w.2 = s) :
    ws.foldl (fun o w => writeCell o w.1 (img w.2)) out k = img s := by
  induction ws generalizing out with
  | nil => cases hmem
  | cons w ws ih =>
    rw [List.foldl_cons]
    by_cases hlater : ∀ w' ∈ ws, w'.1 ≠ k
    · rw [foldl_writeCell_not_mem img ws _ k hlater]
      have hw : w = (k, s) := by
        rcases List.mem_cons.mp hmem with h | h
        · exact h.symm
        · exact absurd rfl (hlater _ h)
      subst hw
      simp [writeCell]
    · push_neg at hlater
      obtain ⟨w', hw', hkey⟩ := hlater
      have hs : w'.2 = s := huniq w' (List.mem_cons_of_mem _ hw') hkey
      have hmem' : (k, s) ∈ ws := by
        have hw'' : w' = (k, s) := Prod.ext_iff.mpr ⟨hkey, hs⟩
        rwa [hw''] at hw'
      exact ih _ hmem' (fun w'' hw'' hk => huniq w'' (List.mem_cons_of_mem _ hw'') hk)

theorem mem_embiggenWrites (w : ℕ × ℕ) :
    w ∈ embiggenWrites ↔
      ∃ i j, (1 ≤ i ∧ i ≤ 254) ∧ (1 ≤ j ∧ j ≤ 254) ∧
        ∃ od ∈ tileOffsets, w = (i * 1030 + j + od.1, i * 1024 + j + od.2) := by
  simp only [embiggenWrites, List.mem_flatMap, List.mem_map, List.mem_range'_1]
  constructor
  · rintro ⟨i, hi, j, hj, od, hod, rfl⟩
    exact ⟨i, j, ⟨hi.1, by omega⟩, ⟨hj.1, by omega⟩, od, hod, rfl⟩
  · rintro ⟨i, j, hi, hj, od, hod, rfl⟩
    exact ⟨i, ⟨hi.1, by omega⟩, ⟨j, ⟨hj.1, by omega⟩, od, hod, rfl⟩⟩

theorem embiggenWrites_key_value (I J i j o1 o2 : ℕ) (_hI : I < 514) (hJ : J < 1030)
    (hi : 1 ≤ i ∧ i ≤ 254) (hj : 1 ≤ j ∧ j ≤ 254)
    (hod : (o1 = 0 ∧ o2 = 0) ∨ (o1 = 258 ∧ o2 = 256) ∨ (o1 = 516 ∧ o2 = 512) ∨
      (o1 = 774 ∧ o2 = 768) ∨ (o1 = 265740 ∧ o2 = 262144) ∨
      (o1 = 258 + 265740 ∧ o2 = 256 + 262144) ∨ (o1 = 516 + 265740 ∧ o2 = 512 + 262144) ∨
      (o1 = 774 + 265740 ∧ o2 = 768 + 262144))
    (hkey : i * 1030 + j + o1 = I * 1030 + J) :
    i * 1024 + j + o2 = (I / 258 * 256 + I % 258) * 1024 + (J / 258 * 256 + J % 258) := by
  omega

theorem embiggenWrites_key_region (I J i j o1 o2 : ℕ) (_hI : I < 514) (hJ : J < 1030)
    (hi : 1 ≤ i ∧ i ≤ 254) (hj : 1 ≤ j ∧ j ≤ 254)
    (hod : (o1 = 0 ∧ o2 = 0) ∨ (o1 = 258 ∧ o2 = 256) ∨ (o1 = 516 ∧ o2 = 512) ∨
      (o1 = 774 ∧ o2 = 768) ∨ (o1 = 265740 ∧ o2 = 262144) ∨
      (o1 = 258 + 265740 ∧ o2 = 256 + 262144) ∨ (o1 = 516 + 265740 ∧ o2 = 512 + 262144) ∨
      (o1 = 774 + 265740 ∧ o2 = 768 + 262144))
    (hkey : i * 1030 + j + o1 = I * 1030 + J) :
    1 ≤ I % 258 ∧ I % 258 ≤ 254 ∧ 1 ≤ J % 258 ∧ J % 258 ≤ 254 := by
  have hIJ : (I = i ∨ I = i + 258) ∧ (J = j ∨ J = j + 258 ∨ J = j + 516 ∨ J = j + 774) := by
    rcases hod with ⟨h1, h2⟩ | ⟨h1, h2⟩ | ⟨h1, h2⟩ | ⟨h1, h2⟩ | ⟨h1, h2⟩ | ⟨h1, h2⟩ | ⟨h1, h2⟩ |
      ⟨h1, h2⟩ <;> subst h1 <;> omega
  omega

theorem embiggen_apply (img : ℕ → ℕ) (I J : ℕ) (hI : I < 514) (hJ : J < 1030) :
    embiggen img (I * 1030 + J) =
      if 1 ≤ I % 258 ∧ I % 258 ≤ 254 ∧ 1 ≤ J % 258 ∧ J % 258 ≤ 254 then
        img ((I / 258 * 256 + I % 258) * 1024 + (J / 258 * 256 + J % 258))
      else sentinel := by
  split_ifs with hin
  · apply foldl_writeCell_mem
    · rw [mem_embiggenWrites]
      refine ⟨I % 258, J % 258, ⟨hin.1, hin.2.1⟩, ⟨hin.2.2.1, hin.2.2.2⟩, ?_⟩
      have h1 : I / 258 = 0 ∨ I / 258 = 1 := by omega
      have h2 : J / 258 = 0 ∨ J / 258 = 1 ∨ J / 258 = 2 ∨ J / 258 = 3 := by omega
      rcases h1 with h1 | h1 <;> rcases h2 with h2 | h2 | h2 | h2
      · exact ⟨(0, 0), by simp [tileOffsets], by simp only [Prod.mk.injEq]; constructor <;> omega⟩
      · exact ⟨(258, 256), by simp [tileOffsets], by simp only [Prod.mk.injEq]; constructor <;> omega⟩
      · exact ⟨(516, 512), by simp [tileOffsets], by simp only [Prod.mk.injEq]; constructor <;> omega⟩
      · exact ⟨(774, 768), by simp [tileOffsets], by simp only [Prod.mk.injEq]; constructor <;> omega⟩
      · exact ⟨(265740, 262144), by simp [tileOffsets], by simp only [Prod.mk.injEq]; constructor <;> omega⟩
      · exact ⟨(258 + 265740, 256 + 262144), by simp [tileOffsets], by simp only [Prod.mk.injEq]; constructor <;> omega⟩
      · exact ⟨(516 + 265740, 512 + 262144), by simp [tileOffsets], by simp only [Prod.mk.injEq]; constructor <;> omega⟩
      · exact ⟨(774 + 265740, 768 + 262144), by simp [tileOffsets], by simp only [Prod.mk.injEq]; constructor <;> omega⟩
    · intro w hw hkey
      rw [mem_embiggenWrites] at hw
      obtain ⟨i, j, hi, hj, od, hod, rfl⟩ := hw
      rcases od with ⟨o1, o2⟩
      simp only [tileOffsets, List.mem_cons, List.not_mem_nil, or_false, Prod.mk.injEq] at hod
      dsimp only at hkey ⊢
      exact embiggenWrites_key_value I J i j o1 o2 hI hJ hi hj hod hkey
  · apply foldl_writeCell_not_mem
    intro w hw
    rw [mem_embiggenWrites] at hw
    obtain ⟨i, j, hi, hj, od, hod, rfl⟩ := hw
    rcases od with ⟨o1, o2⟩
    simp only [tileOffsets, List.mem_cons, List.not_mem_nil, or_false, Prod.mk.injEq] at hod
    dsimp only
    intro hkey
    exact hin (embiggenWrites_key_region I J i j o1 o2 hI hJ hi hj hod hkey)

set_option maxRecDepth 4000 in
/-- C6: embiggen initialises every cell of the 514x1030 output to the
sentinel and copies each tile-interior pixel (tile-local rows/columns
1..254, tiles (tr, tc) with tr in 0..1 and tc in 0..3) verbatim to
out[tr*258+r][tc*258+c] = in[tr*256+r][tc*256+c]; every output cell not
hit by that mapping ends equal to the sentinel. -/
theorem embiggen_layout (img : ℕ → ℕ) :
    (∀ tr tc r c, tr ≤ 1 → tc ≤ 3 → 1 ≤ r → r ≤ 254 → 1 ≤ c → c ≤ 254 →
      embiggen img ((tr * 258 + r) * 1030 + (tc * 258 + c)) =
        img ((tr * 256 + r) * 1024 + (tc * 256 + c))) ∧
    (∀ I J, I < 514 → J < 1030 →
      (¬ ∃ tr tc r c, tr ≤ 1 ∧ tc ≤ 3 ∧ 1 ≤ r ∧ r ≤ 254 ∧ 1 ≤ c ∧ c ≤ 254 ∧
        I = tr * 258 + r ∧ J = tc * 258 + c) →
      embiggen img (I * 1030 + J) = sentinel) := by
  constructor
  · intro tr tc r c htr htc hr1 hr2 hc1 hc2
    have h := embiggen_apply img (tr * 258 + r) (tc * 258 + c) (by omega) (by omega)
    have hcond : 1 ≤ (tr * 258 + r) % 258 ∧ (tr * 258 + r) % 258 ≤ 254 ∧
        1 ≤ (tc * 258 + c) % 258 ∧ (tc * 258 + c) % 258 ≤ 254 := by omega
    rw [h, if_pos hcond]
    have h1 : (tr * 258 + r) / 258 = tr := by omega
    have h2 : (tr * 258 + r) % 258 = r := by omega
    have h3 : (tc * 258 + c) / 258 = tc := by omega
    have h4 : (tc * 258 + c) % 258 = c := by omega
    rw [h1, h2, h3, h4]
  · intro I J hI hJ hnone
    have h := embiggen_apply img I J hI hJ
    have hcond : ¬ (1 ≤ I % 258 ∧ I % 258 ≤ 254 ∧ 1 ≤ J % 258 ∧ J % 258 ≤ 254) := by
      intro hin
      exact hnone ⟨I / 258, J / 258, I % 258, J % 258, by omega, by omega, hin.1, hin.2.1,
        hin.2.2.1, hin.2.2.2, by omega, by omega⟩
    rw [h, if_neg hcond]

theorem embiggen_layout_witness :
    embiggen (fun k => k) ((0 * 258 + 1) * 1030 + (0 * 258 + 1)) =
      (0 * 256 + 1) * 1024 + (0 * 256 + 1) ∧
    embiggen (fun k => k) (0 * 1030 + 0) = sentinel := by
  constructor
  · exact (embiggen_layout (fun k => k)).1 0 0 1 1 (by norm_num) (by norm_num) (by norm_num)
      (by norm_num) (by norm_num) (by norm_num)
  · refine (embiggen_layout (fun k => k)).2 0 0 (by norm_num) (by norm_num) ?_
    rintro ⟨tr, tc, r, c, -, -, hr1, -, hc1, -, hI, hJ⟩
    omega

/-- C7: the expanded output is independent of the compact image's
tile-boundary pixels: two compact images agreeing on all tile-interior
pixels produce identical outputs, and every output cell outside the
eight copied interior blocks is the sentinel for every input. -/
theorem embiggen_boundary_independent (img1 img2 : ℕ → ℕ)
    (h : ∀ tr tc r c, tr ≤ 1 → tc ≤ 3 → 1 ≤ r → r ≤ 254 → 1 ≤ c → c ≤ 254 →
      img1 ((tr * 256 + r) * 1024 + (tc * 256 + c)) =
        img2 ((tr * 256 + r) * 1024 + (tc * 256 + c))) :
    (∀ I J, I < 514 → J < 1030 →
      embiggen img1 (I * 1030 + J) = embiggen img2 (I * 1030 + J)) ∧
    (∀ img : ℕ → ℕ, ∀ I J, I < 514 → J < 1030 →
      ¬ (1 ≤ I % 258 ∧ I % 258 ≤ 254 ∧ 1 ≤ J % 258 ∧ J % 258 ≤ 254) →
      embiggen img (I * 1030 + J) = sentinel) := by
  constructor
  · intro I J hI hJ
    rw [embiggen_apply img1 I J hI hJ, embiggen_apply img2 I J hI hJ]
    split_ifs with hin
    · exact h (I / 258) (J / 258) (I % 258) (J % 258) (by omega) (by omega) (by omega)
        (by omega) (by omega) (by omega)
    · rfl
  · intro img I J hI hJ hout
    rw [embiggen_apply img I J hI hJ, if_neg hout]

theorem embiggen_boundary_independent_witness :
    embiggen (fun k => k) (1 * 1030 + 1) =
      embiggen (fun k => if k = 255 then 999 else k) (1 * 1030 + 1) ∧
    embiggen (fun k => k) (0 * 1030 + 255) = sentinel := by
  have hagree : ∀ tr tc r c, tr ≤ 1 → tc ≤ 3 → 1 ≤ r → r ≤ 254 → 1 ≤ c → c ≤ 254 →
      (fun k => k) ((tr * 256 + r) * 1024 + (tc * 256 + c)) =
        (fun k => if k = 255 then 999 else k) ((tr * 256 + r) * 1024 + (tc * 256 + c)) := by
    intro tr tc r c htr htc hr1 hr2 hc1 hc2
    have hne : (tr * 256 + r) * 1024 + (tc * 256 + c) ≠ 255 := by omega
    simp [hne]
  constructor
  · exact (embiggen_boundary_independent (fun k => k) (fun k => if k = 255 then 999 else k)
      hagree).1 1 1 (by norm_num) (by norm_num)
  · refine (embiggen_boundary_independent (fun k => k) (fun k => if k = 255 then 999 else k)
      hagree).2 (fun k => k) 0 255 (by norm_num) (by norm_num) ?_
    omega

/-- C1 (code bug evidence): the claim states that a tile-boundary pixel
of the compact image is halved into the two adjacent output cells so the
fragments sum back to the original value; the `embiggen` of morgul.c
instead discards boundary pixels entirely.  For the compact image that is
constant 2, the two output fragments of boundary pixel (5, 255) both end
as the sentinel, not as halves summing to 2 (the intended split exists
only as unfinished scaffolding comments in the prototype revision). -/
theorem embiggen_discards_boundary :
    embiggen (fun _ => 2) (5 * 1030 + 255) = sentinel ∧
    embiggen (fun _ => 2) (5 * 1030 + 256) = sentinel ∧
    sentinel + sentinel ≠ 2 := by
  refine ⟨?_, ?_, by norm_num [sentinel]⟩
  · rw [embiggen_apply (fun _ => 2) 5 255 (by norm_num) (by norm_num), if_neg (by omega)]
  · rw [embiggen_apply (fun _ => 2) 5 256 (by norm_num) (by norm_num), if_neg (by omega)]

theorem forcedLoop_cons (n x : ℕ) (rest : List ℕ) (buf acc : ℕ) :
    forcedLoop (n + 1) (x :: rest, buf, acc) = forcedLoop n (rest, x, acc + (x &&& 0x3fff)) := by
  rfl

theorem forcedLoop_nil (n buf acc : ℕ) :
    forcedLoop n ([], buf, acc) = ([], buf, acc + n * (buf &&& 0x3fff)) := by
  induction n generalizing acc with
  | zero => simp [forcedLoop]
  | succ n ih =>
    show forcedLoop n ([], buf, acc + (buf &&& 0x3fff)) = _
    rw [ih]
    have : acc + (buf &&& 0x3fff) + n * (buf &&& 0x3fff) = acc + (n + 1) * (buf &&& 0x3fff) := by
      ring
    rw [this]

theorem forcedLoop_append (xs rest : List ℕ) (buf acc : ℕ) :
    forcedLoop xs.length (xs ++ rest, buf, acc) =
      (rest, xs.getLastD buf, acc + (xs.map (fun v => v &&& 0x3fff)).sum) := by
  induction xs generalizing buf acc with
  | nil => simp [forcedLoop]
  | cons x xs ih =>
    rw [List.length_cons, List.cons_append, forcedLoop_cons, ih]
    rw [List.getLastD_cons]
    simp only [List.map_cons, List.sum_cons]
    have : acc + (x &&& 0x3fff) + (xs.map (fun v => v &&& 0x3fff)).sum =
        acc + ((x &&& 0x3fff) + (xs.map (fun v => v &&& 0x3fff)).sum) := by omega
    rw [this]

theorem highLoop_cons_clean (n x : ℕ) (rest : List ℕ) (buf acc : ℕ) (m : Bool)
    (hx : x &&& 0xc000 = 0) :
    highLoop (n + 1) (x :: rest, buf, acc, m) = highLoop n (rest, x, acc + x, m) := by
  show (if x &&& 0xc000 ≠ 0 then _ else _) = _
  rw [if_neg (by omega)]
  rfl

theorem highLoop_cons_bad (n x : ℕ) (rest : List ℕ) (buf acc : ℕ) (m : Bool)
    (hx : x &&& 0xc000 ≠ 0) :
    highLoop (n + 1) (x :: rest, buf, acc, m) = highLoop n (rest, x, 0, false) := by
  show (if x &&& 0xc000 ≠ 0 then _ else _) = _
  rw [if_pos hx]
  rfl

theorem highLoop_nil_clean (n buf acc : ℕ) (m : Bool) (hbuf : buf &&& 0xc000 = 0) :
    highLoop n ([], buf, acc, m) = ([], buf, acc + n * buf, m) := by
  induction n generalizing acc with
  | zero => simp [highLoop]
  | succ n ih =>
    show (if buf &&& 0xc000 ≠ 0 then _ else _) = _
    rw [if_neg (by omega)]
    show highLoop n ([], buf, acc + buf, m) = _
    rw [ih]
    have : acc + buf + n * buf = acc + (n + 1) * buf := by ring
    rw [this]

theorem highLoop_append_clean (xs rest : List ℕ) (buf acc : ℕ) (m : Bool)
    (hxs : ∀ v ∈ xs, v &&& 0xc000 = 0) :
    highLoop xs.length (xs ++ rest, buf, acc, m) =
      (rest, xs.getLastD buf, acc + xs.sum, m) := by
  induction xs generalizing buf acc with
  | nil => simp [highLoop]
  | cons x xs ih =>
    rw [List.length_cons, List.cons_append,
      highLoop_cons_clean _ _ _ _ _ _ (hxs x (List.mem_cons_self _ _)),
      ih _ _ (fun v hv => hxs v (List.mem_cons_of_mem _ hv))]
    rw [List.getLastD_cons]
    simp only [List.sum_cons]
    have : acc + x + xs.sum = acc + (x + xs.sum) := by omega
    rw [this]

theorem highLoop_skip (pre : List ℕ) (n : ℕ) :
    ∀ rest buf acc m, ∃ b a mm,
      highLoop (pre.length + n) (pre ++ rest, buf, acc, m) = highLoop n (rest, b, a, mm) := by
  induction pre with
  | nil =>
    intro rest buf acc m
    exact ⟨buf, acc, m, by simp⟩
  | cons x pre ih =>
    intro rest buf acc m
    have hlen : (x :: pre).length + n = (pre.length + n) + 1 := by
      simp [List.length_cons]; omega
    rw [hlen, List.cons_append]
    by_cases hx : x &&& 0xc000 ≠ 0
    · rw [highLoop_cons_bad _ _ _ _ _ _ hx]
      exact ih rest x 0 false
    · rw [highLoop_cons_clean _ _ _ _ _ _ (by omega)]
      exact ih rest x (acc + x) m

theorem workRun_foldl (st : Calib) (energy : ℚ) (frames : List ℕ) (acc : List ℕ) :
    frames.foldl (fun s raw => (s.1, s.2 ++ [correctPixel s.1 raw energy])) (st, acc) =
      (st, acc ++ frames.map (fun raw => correctPixel st raw energy)) := by
  induction frames generalizing acc with
  | nil => simp
  | cons x xs ih =>
    rw [List.foldl_cons]
    show xs.foldl _ (st, acc ++ [correctPixel st x energy]) = _
    rw [ih]
    simp

theorem workRun_eq (st : Calib) (energy : ℚ) (frames : List ℕ) :
    workRun st energy frames = (st, frames.map (fun raw => correctPixel st raw energy)) := by
  unfold workRun
  rw [workRun_foldl]
  simp

theorem castU32_natCast (n : ℕ) (h : n < 4294967296) : castU32 (n : ℚ) = n := by
  unfold castU32 ratTrunc
  rw [Rat.num_natCast, Rat.den_natCast]
  rw [show ((1 : ℕ) : ℤ) = 1 from rfl, Int.tdiv_one]
  omega

/-- C2: for an unmasked pixel the compact corrected value equals the
C-style truncation toward zero, into an unsigned 32-bit integer, of
(adc - pedestal[m]) / (gain[m] * energy) with mode m = raw >> 14 and
adc = raw & 0x3fff; mode 3 selects the low-gain table (g2, p2), mode 1
the medium-gain table (g1, p1), any other mode the high-gain table
(g0, p0). -/
theorem correctPixel_formula (st : Calib) (raw : ℕ) (energy : ℚ)
    (hmask : st.mask = true) :
    correctPixel st raw energy =
      castU32 ((((raw &&& 0x3fff : ℕ) : ℚ) -
          (if raw >>> 14 = 3 then st.p2 else if raw >>> 14 = 1 then st.p1 else st.p0)) /
        ((if raw >>> 14 = 3 then st.g2 else if raw >>> 14 = 1 then st.g1 else st.g0) *
          energy)) := by
  simp only [correctPixel, hmask, if_true, mul_one, Bool.true_eq_false, if_false]
  split_ifs <;> rfl

theorem correctPixel_formula_witness :
    correctPixel ⟨1, 1, 1, 0, 0, 0, true⟩ 100 1 = 100 := by
  rw [correctPixel_formula ⟨1, 1, 1, 0, 0, 0, true⟩ 100 1 rfl]
  show castU32 ((((100 &&& 0x3fff : ℕ) : ℚ) - 0) / (1 * 1)) = 100
  rw [show (100 &&& 0x3fff : ℕ) = 100 from by decide]
  rw [show ((((100 : ℕ) : ℚ)) - 0) / (1 * 1) = ((100 : ℕ) : ℚ) from by norm_num]
  rw [castU32_natCast 100 (by norm_num)]

/-- C3 counterexample: an unmasked pixel whose corrected arithmetic value
is exactly 2^32 - 1 makes the output equal the sentinel while the mask is
true, refuting the claimed equivalence "output is the sentinel iff the
pixel is masked" in its only-if direction. -/
theorem sentinel_on_unmasked_pixel :
    (Calib.mk (1 / 4294967295) 1 1 0 0 0 true).mask = true ∧
    correctPixel (Calib.mk (1 / 4294967295) 1 1 0 0 0 true) 1 1 = 0xffffffff := by
  refine ⟨rfl, ?_⟩
  show castU32 ((((1 &&& 0x3fff : ℕ) : ℚ) - 0) / (1 / 4294967295 * 1)) = 0xffffffff
  rw [show (1 &&& 0x3fff : ℕ) = 1 from by decide]
  rw [show ((((1 : ℕ) : ℚ)) - 0) / (1 / 4294967295 * 1) = ((4294967295 : ℕ) : ℚ) from by
    norm_num]
  rw [castU32_natCast 4294967295 (by norm_num)]

/-- C3 amended: a masked pixel's output is forced to the sentinel
regardless of the arithmetic result; an unmasked pixel's output is the
truncated corrected value, which (as the counterexample shows) can itself
equal the sentinel, so the sentinel does not imply a masked pixel. -/
theorem masked_pixel_forced_sentinel (st : Calib) (raw : ℕ) (energy : ℚ)
    (hmask : st.mask = false) :
    correctPixel st raw energy = 0xffffffff := by
  simp [correctPixel, hmask]

theorem masked_pixel_forced_sentinel_witness :
    correctPixel ⟨1, 1, 1, 0, 0, 0, false⟩ 5 1 = 0xffffffff :=
  masked_pixel_forced_sentinel ⟨1, 1, 1, 0, 0, 0, false⟩ 5 1 rfl

/-- C4: in the high-gain dark run every pixel starts with mask true and a
zero accumulator; a frame with either of its top 2 bits set makes the
mask permanently false and resets the accumulator (discarding all earlier
frames); clean frames add the full raw 16-bit value; the pedestal is the
accumulator divided by the fixed constant 1000.  Hence a pixel whose top
bits are set on some frame and never afterwards ends with mask false and
p0 equal to the sum of the raw values of the frames after that one,
divided by 1000. -/
theorem highGain_reset_quirk (low med pre post : List ℕ) (bad buf0 : ℕ)
    (hlow : low.length = 1000) (hmed : med.length = 1000)
    (hlen : pre.length + 1 + post.length = 1000)
    (hbad : bad &&& 0xc000 ≠ 0)
    (hpost : ∀ x ∈ post, x &&& 0xc000 = 0) :
    (pedestalPixel (low ++ med ++ (pre ++ bad :: post)) buf0).mask = false ∧
    (pedestalPixel (low ++ med ++ (pre ++ bad :: post)) buf0).p0 =
      (post.sum : ℚ) / 1000 := by
  have h1 : forcedLoop 1000 (low ++ (med ++ (pre ++ bad :: post)), buf0, 0) =
      (med ++ (pre ++ bad :: post), low.getLastD buf0,
        0 + (low.map (fun v => v &&& 0x3fff)).sum) := by
    rw [← hlow]
    exact forcedLoop_append _ _ _ _
  have h2 : forcedLoop 1000 (med ++ (pre ++ bad :: post), low.getLastD buf0, 0) =
      (pre ++ bad :: post, med.getLastD (low.getLastD buf0),
        0 + (med.map (fun v => v &&& 0x3fff)).sum) := by
    rw [← hmed]
    exact forcedLoop_append _ _ _ _
  have h3 : highLoop 1000
      (pre ++ bad :: post, med.getLastD (low.getLastD buf0), 0, true) =
      ([], post.getLastD bad, 0 + post.sum, false) := by
    obtain ⟨b, a, mm, hskip⟩ := highLoop_skip pre (1 + post.length) (bad :: post)
      (med.getLastD (low.getLastD buf0)) 0 true
    rw [show (1000 : ℕ) = pre.length + (1 + post.length) from by omega, hskip,
      show 1 + post.length = post.length + 1 from by omega,
      highLoop_cons_bad _ _ _ _ _ _ hbad]
    have hclean := highLoop_append_clean post [] bad 0 false hpost
    rw [List.append_nil] at hclean
    rw [hclean]
  have hped : pedestalPixel (low ++ med ++ (pre ++ bad :: post)) buf0 =
      { p0 := ((0 + post.sum : ℕ) : ℚ) / 1000,
        p1 := ((0 + (med.map (fun v => v &&& 0x3fff)).sum : ℕ) : ℚ) / 1000,
        p2 := ((0 + (low.map (fun v => v &&& 0x3fff)).sum : ℕ) : ℚ) / 1000,
        mask := false } := by
    simp only [pedestalPixel, List.append_assoc, h1, h2, h3]
  rw [hped]
  refine ⟨rfl, ?_⟩
  show ((0 + post.sum : ℕ) : ℚ) / 1000 = (post.sum : ℚ) / 1000
  rw [Nat.zero_add]

theorem highGain_reset_quirk_witness :
    (pedestalPixel (List.replicate 1000 0 ++ List.replicate 1000 0 ++
      (List.replicate 99 0 ++ 49152 :: List.replicate 900 7)) 0).mask = false ∧
    (pedestalPixel (List.replicate 1000 0 ++ List.replicate 1000 0 ++
      (List.replicate 99 0 ++ 49152 :: List.replicate 900 7)) 0).p0 = 63 / 10 := by
  have h := highGain_reset_quirk (List.replicate 1000 0) (List.replicate 1000 0)
    (List.replicate 99 0) (List.replicate 900 7) 49152 0 (List.length_replicate 1000 0)
    (List.length_replicate 1000 0)
    (by rw [List.length_replicate, List.length_replicate])
    (by decide) (fun x hx => by rw [List.eq_of_mem_replicate hx]; decide)
  refine ⟨h.1, ?_⟩
  rw [h.2]
  rw [List.sum_replicate]
  norm_num [smul_eq_mul]

/-- C5: for the low-gain and medium-gain dark runs the pedestal is the
arithmetic mean, over the exactly 1000 frames of the run, of the sample's
low-14-bit value (the top two gain-mode bits are masked off and
ignored). -/
theorem forced_pedestal_mean (low med rest : List ℕ) (buf0 : ℕ)
    (hlow : low.length = 1000) (hmed : med.length = 1000) :
    (pedestalPixel (low ++ med ++ rest) buf0).p2 =
      (((low.map (fun v => v &&& 0x3fff)).sum : ℕ) : ℚ) / (low.length : ℚ) ∧
    (pedestalPixel (low ++ med ++ rest) buf0).p1 =
      (((med.map (fun v => v &&& 0x3fff)).sum : ℕ) : ℚ) / (med.length : ℚ) := by
  have h1 : forcedLoop 1000 (low ++ (med ++ rest), buf0, 0) =
      (med ++ rest, low.getLastD buf0, 0 + (low.map (fun v => v &&& 0x3fff)).sum) := by
    rw [← hlow]
    exact forcedLoop_append _ _ _ _
  have h2 : forcedLoop 1000 (med ++ rest, low.getLastD buf0, 0) =
      (rest, med.getLastD (low.getLastD buf0),
        0 + (med.map (fun v => v &&& 0x3fff)).sum) := by
    rw [← hmed]
    exact forcedLoop_append _ _ _ _
  have hped : pedestalPixel (low ++ med ++ rest) buf0 =
      { p0 := ((highLoop 1000 (rest, med.getLastD (low.getLastD buf0), 0, true)).2.2.1 : ℚ) / 1000,
        p1 := ((0 + (med.map (fun v => v &&& 0x3fff)).sum : ℕ) : ℚ) / 1000,
        p2 := ((0 + (low.map (fun v => v &&& 0x3fff)).sum : ℕ) : ℚ) / 1000,
        mask := (highLoop 1000 (rest, med.getLastD (low.getLastD buf0), 0, true)).2.2.2 } := by
    simp only [pedestalPixel, List.append_assoc, h1, h2]
  rw [hped, hlow, hmed]
  constructor
  · show ((0 + (low.map (fun v => v &&& 0x3fff)).sum : ℕ) : ℚ) / 1000 = _
    rw [Nat.zero_add]
    norm_num
  · show ((0 + (med.map (fun v => v &&& 0x3fff)).sum : ℕ) : ℚ) / 1000 = _
    rw [Nat.zero_add]
    norm_num

theorem forced_pedestal_mean_witness :
    (pedestalPixel (List.replicate 1000 10 ++ List.replicate 1000 16387 ++ []) 0).p2 = 10 ∧
    (pedestalPixel (List.replicate 1000 10 ++ List.replicate 1000 16387 ++ []) 0).p1 = 3 := by
  have h := forced_pedestal_mean (List.replicate 1000 10) (List.replicate 1000 16387) [] 0
    (List.length_replicate 1000 10) (List.length_replicate 1000 16387)
  have e10 : (10 : ℕ) &&& 0x3fff = 10 := by decide
  have e3 : (16387 : ℕ) &&& 0x3fff = 3 := by decide
  constructor
  · rw [h.1]
    simp only [List.map_replicate]
    rw [e10, List.sum_replicate, List.length_replicate]
    norm_num [smul_eq_mul]
  · rw [h.2]
    simp only [List.map_replicate]
    rw [e3, List.sum_replicate, List.length_replicate]
    norm_num [smul_eq_mul]

/-- C8 counterexample: a dark stream with a single frame (far fewer than
the 1000 frames per gain mode the claim requires to be diagnosed as an
error) is consumed without any error being surfaced: `pedestal` has no
failure path at all, the exhausted stream simply re-reads the stale
buffer (C `fread` past end of file), and a complete calibration is
silently produced.  With the single sample 10 every pedestal becomes 10
and the mask stays true. -/
theorem pedestal_short_stream_silent :
    (pedestalPixel [10] 0).p2 = 10 ∧ (pedestalPixel [10] 0).p1 = 10 ∧
    (pedestalPixel [10] 0).p0 = 10 ∧ (pedestalPixel [10] 0).mask = true := by
  have h1 : forcedLoop 1000 ([10], 0, 0) = ([], 10, 10000) := by
    rw [show (1000 : ℕ) = 999 + 1 from rfl, forcedLoop_cons, forcedLoop_nil]
    decide
  have h2 : forcedLoop 1000 ([], 10, 0) = ([], 10, 10000) := by
    rw [forcedLoop_nil]
    decide
  have h3 : highLoop 1000 ([], 10, 0, true) = ([], 10, 10000, true) := by
    rw [highLoop_nil_clean _ _ _ _ (by decide)]
  have hped : pedestalPixel [10] 0 =
      { p0 := ((10000 : ℕ) : ℚ) / 1000, p1 := ((10000 : ℕ) : ℚ) / 1000,
        p2 := ((10000 : ℕ) : ℚ) / 1000, mask := true } := by
    simp only [pedestalPixel, h1, h2, h3]
  rw [hped]
  norm_num

/-- C8 amended: no length check exists; a dark stream shorter than 1000
frames per mode is processed silently, iterations past the end of the
stream re-adding the last frame read because `fread` at end of file
leaves the pixel buffer untouched.  A one-frame stream with clean sample
`x` completes calibration with p2 = p1 = low14(x), p0 = x and mask
true. -/
theorem pedestal_single_frame_stream (x buf0 : ℕ) (hclean : x &&& 0xc000 = 0) :
    (pedestalPixel [x] buf0).p2 = ((x &&& 0x3fff : ℕ) : ℚ) ∧
    (pedestalPixel [x] buf0).p1 = ((x &&& 0x3fff : ℕ) : ℚ) ∧
    (pedestalPixel [x] buf0).p0 = (x : ℚ) ∧
    (pedestalPixel [x] buf0).mask = true := by
  have h1 : forcedLoop 1000 ([x], buf0, 0) = ([], x, 1000 * (x &&& 0x3fff)) := by
    rw [show (1000 : ℕ) = 999 + 1 from rfl, forcedLoop_cons, forcedLoop_nil]
    have e : 0 + (x &&& 0x3fff) + 999 * (x &&& 0x3fff) = 1000 * (x &&& 0x3fff) := by omega
    rw [e]
  have h2 : forcedLoop 1000 ([], x, 0) = ([], x, 1000 * (x &&& 0x3fff)) := by
    rw [forcedLoop_nil]
    have e : 0 + 1000 * (x &&& 0x3fff) = 1000 * (x &&& 0x3fff) := by omega
    rw [e]
  have h3 : highLoop 1000 ([], x, 0, true) = ([], x, 1000 * x, true) := by
    rw [highLoop_nil_clean _ _ _ _ hclean]
    have e : 0 + 1000 * x = 1000 * x := by omega
    rw [e]
  have hped : pedestalPixel [x] buf0 =
      { p0 := ((1000 * x : ℕ) : ℚ) / 1000,
        p1 := ((1000 * (x &&& 0x3fff) : ℕ) : ℚ) / 1000,
        p2 := ((1000 * (x &&& 0x3fff) : ℕ) : ℚ) / 1000, mask := true } := by
    simp only [pedestalPixel, h1, h2, h3]
  rw [hped]
  refine ⟨?_, ?_, ?_, rfl⟩ <;>
  · show ((1000 * _ : ℕ) : ℚ) / 1000 = _
    push_cast
    rw [mul_comm, mul_div_assoc]
    norm_num

theorem pedestal_single_frame_stream_witness :
    (pedestalPixel [12] 0).p2 = 12 ∧ (pedestalPixel [12] 0).p1 = 12 ∧
    (pedestalPixel [12] 0).p0 = 12 ∧ (pedestalPixel [12] 0).mask = true := by
  have h := pedestal_single_frame_stream 12 0 (by decide)
  have e12 : (12 : ℕ) &&& 0x3fff = 12 := by decide
  rw [e12] at h
  exact_mod_cast h

/-- C9 counterexample: `main` performs no check on the photon energy: with
four arguments and energy 0 the program proceeds to correct a frame (the
stream below holds 2001 frames, so exactly one frame past the 2000
skipped warm-up frames is corrected with energy 0), instead of failing
before any frame is processed. -/
theorem main_accepts_zero_energy :
    (morgulMainPixel 4 0 1 1 1 (List.replicate 2001 10) 0).isSome = true ∧
    ((morgulMainPixel 4 0 1 1 1 (List.replicate 2001 10) 0).getD []).length = 1 := by
  have hmain : morgulMainPixel 4 0 1 1 1 (List.replicate 2001 10) 0 =
      some (((List.replicate 2001 10).drop 2000).map
        (fun raw => correctPixel (calibOf (pedestalPixel (List.replicate 2001 10) 0) 1 1 1)
          raw 0)) := by
    simp only [morgulMainPixel]
    rw [if_neg (by norm_num), workRun_eq]
  rw [hmain]
  refine ⟨rfl, ?_⟩
  rw [Option.getD_some, List.length_map, List.length_drop, List.length_replicate]

/-- C9 amended: `main` validates only the argument count; any energy
value, including zero and negative values, is accepted and the frames are
processed with it. -/
theorem main_no_energy_validation (argc : ℕ) (energy gv0 gv1 gv2 : ℚ)
    (stream : List ℕ) (buf0 : ℕ) (hargc : 4 ≤ argc) :
    (morgulMainPixel argc energy gv0 gv1 gv2 stream buf0).isSome = true := by
  simp only [morgulMainPixel]
  rw [if_neg (by omega)]
  rfl

theorem main_no_energy_validation_witness :
    (morgulMainPixel 4 (-1) 1 1 1 [] 0).isSome = true :=
  main_no_energy_validation 4 (-1) 1 1 1 [] 0 (by norm_num)

/-- C10: correcting any sequence of frames has no effect on the
calibration state: the state threaded through the frame loop of `work` is
returned unchanged, and every output frame is computed from the original
calibration values. -/
theorem workRun_preserves_calibration (st : Calib) (energy : ℚ) (frames : List ℕ) :
    (workRun st energy frames).1 = st ∧
    (workRun st energy frames).2 = frames.map (fun raw => correctPixel st raw energy) := by
  rw [workRun_eq]
  exact ⟨rfl, rfl⟩

end Morgul
